import Mathlib

/-
Verification of the run-preserving text replacer and substitution driver
of word.py (doc-genrate-with-date).

The paragraph model: a paragraph is an ordered list of runs; a run is a
text span with an opaque style reference and a set of font properties.
Text is modelled as `List Char` (Python `str` is a sequence of code
points).  Machine-level details (XML, python-docx object identity) are
outside the model; the functions below are direct translations of the
corresponding Python functions.
-/

namespace DocGen

/-- Non-breaking space character, U+00A0 (Python "\xa0"). -/
def nbspChar : Char := Char.ofNat 160

/-- Font properties copied by copy_font_style in word.py.  Every field of a
python-docx Font is tri-state (None / explicit value); `none` models the
unset state.  `color` and `highlight` model font.color.rgb and
font.highlight_color, which copy_font_style copies only when set. -/
structure Font where
  name : Option String
  size : Option Nat
  bold : Option Bool
  italic : Option Bool
  underline : Option Bool
  strike : Option Bool
  subscript : Option Bool
  superscript : Option Bool
  color : Option Nat
  highlight : Option Nat
deriving DecidableEq, Repr

/-- The font of a freshly created run (paragraph.add_run): every attribute unset. -/
def defaultFont : Font :=
  ⟨none, none, none, none, none, none, none, none, none, none⟩

/-- A run: text span, opaque style reference, font (word.py stores the
triple (run.text, run.style, run.font) in runs_data). -/
structure Run where
  text : List Char
  style : String
  font : Font
deriving DecidableEq, Repr

/-- copy_font_style (word.py lines 11-37): name, size, bold, italic,
underline, strike, subscript, superscript are copied unconditionally;
color is copied only when source_font.color.rgb is set, highlight only
when source_font.highlight_color is set (the try/except leaves the
target untouched when the source attribute is absent). -/
def copy_font_style (source target : Font) : Font :=
  { name := source.name,
    size := source.size,
    bold := source.bold,
    italic := source.italic,
    underline := source.underline,
    strike := source.strike,
    subscript := source.subscript,
    superscript := source.superscript,
    color := match source.color with
      | some c => some c
      | none => target.color,
    highlight := match source.highlight with
      | some h => some h
      | none => target.highlight }

/-- paragraph.add_run(t) followed by new_run.style = sty and
copy_font_style(f, new_run.font): the fresh run starts with defaultFont. -/
def addRun (t : List Char) (sty : String) (f : Font) : Run :=
  ⟨t, sty, copy_font_style f defaultFont⟩

/-- full_text = "".join(run.text for run in paragraph.runs). -/
def fullText : List Run → List Char
  | [] => []
  | r :: rest => r.text ++ fullText rest

/-- The character-level view of a paragraph: each character paired with the
style reference and font of the run it belongs to. -/
def explode : List Run → List (Char × String × Font)
  | [] => []
  | r :: rest => r.text.map (fun c => (c, r.style, r.font)) ++ explode rest

/-- old_text.replace(" ", "\xa0"): every ordinary space becomes a
non-breaking space (single-character replace is a character map). -/
def spaceToNbsp (c : Char) : Char := if c = ' ' then nbspChar else c

/-- The non-breaking-space variant of a search string. -/
def nbspVariant (l : List Char) : List Char := l.map spaceToNbsp

/-- full_text.find(pat): index of the leftmost occurrence of pat in hay,
none when absent (Python returns -1). -/
def findSub : List Char → List Char → Option Nat
  | hay, pat =>
    if pat.isPrefixOf hay then some 0
    else
      match hay with
      | [] => none
      | _ :: t => (findSub t pat).map (fun i => i + 1)

/-- Lookup policy of replace_text_in_runs (word.py lines 47-58): try the
literal old_text first; if absent, try the non-breaking-space variant;
the result is the chosen search string together with the index of its
leftmost occurrence. -/
def chosenMatch (full old : List Char) : Option (List Char × Nat) :=
  match findSub full old with
  | some s => some (old, s)
  | none =>
    match findSub full (nbspVariant old) with
    | some s => some (nbspVariant old, s)
    | none => none

/-- The rebuild loop of replace_text_in_runs (word.py lines 74-116): walk
the snapshotted runs with a running cursor; a run overlapping [s, e)
emits its prefix fragment (when non-empty), the replacement text (once,
gated by replacement_done), and its suffix fragment (when non-empty);
a run outside [s, e) is re-emitted whole.  Every emitted run carries the
original run's style and a field-by-field font copy. -/
def rebuildRuns : List Run → Nat → Nat → List Char → Nat → Bool → List Run
  | [], _, _, _, _, _ => []
  | r :: rest, s, e, new, cur, done =>
    let n := r.text.length
    let oS := max cur s
    let oE := min (cur + n) e
    if oS < oE then
      (if r.text.take (oS - cur) ≠ [] then [addRun (r.text.take (oS - cur)) r.style r.font] else [])
      ++ (if done then [] else [addRun new r.style r.font])
      ++ (if r.text.drop (oE - cur) ≠ [] then [addRun (r.text.drop (oE - cur)) r.style r.font] else [])
      ++ rebuildRuns rest s e new (cur + n) true
    else
      addRun r.text r.style r.font :: rebuildRuns rest s e new (cur + n) done

/-- replace_text_in_runs (word.py lines 39-118): returns the boolean result
together with the paragraph's new run list (the Python function mutates
the paragraph in place). -/
def replace_text_in_runs (para : List Run) (old new : List Char) : Bool × List Run :=
  match chosenMatch (fullText para) old with
  | none => (false, para)
  | some (m, s) => (true, rebuildRuns para s (s + m.length) new 0 false)

/-- The first run (in order) whose span overlaps [s, e), starting the
cursor at cur: the run whose style and font the replacement text receives. -/
def firstOverlapRun : List Run → Nat → Nat → Nat → Option Run
  | [], _, _, _ => none
  | r :: rest, s, e, cur =>
    if max cur s < min (cur + r.text.length) e then some r
    else firstOverlapRun rest s e (cur + r.text.length)

/-- Number of runs whose span overlaps [s, e): ≥ 2 exactly when the match
spans a run boundary. -/
def overlapCount : List Run → Nat → Nat → Nat → Nat
  | [], _, _, _ => 0
  | r :: rest, s, e, cur =>
    (if max cur s < min (cur + r.text.length) e then 1 else 0)
    + overlapCount rest s e (cur + r.text.length)

/-- Python str whitespace test, restricted to the whitespace characters
relevant to this program: space, tab, newline, carriage return, vertical
tab, form feed and the non-breaking space (all stripped by str.strip()). -/
def isPySpace (c : Char) : Bool :=
  c == ' ' || c == '\t' || c == '\n' || c == '\r'
    || c == Char.ofNat 11 || c == Char.ofNat 12 || c == nbspChar

/-- Python s.strip(): whitespace removed from both ends. -/
def stripPy (l : List Char) : List Char :=
  ((l.dropWhile isPySpace).reverse.dropWhile isPySpace).reverse

/-- Removal of trailing whitespace only (what the specification's words
describe for the name line: "trim trailing whitespace from the match"). -/
def rstripPy (l : List Char) : List Char :=
  (l.reverse.dropWhile isPySpace).reverse

/-- group(1) of re.search(f"({re.escape(name_prefix)}.*)", full) when
name_prefix matches literally at index i: the prefix followed by every
character up to, but not including, the next newline (regex "." does not
match a newline). -/
def regexGroup (full np : List Char) (i : Nat) : List Char :=
  np ++ (full.drop (i + np.length)).takeWhile (fun c => c != '\n')

/-- Step A of the per-paragraph loop body (word.py lines 130-131): the
date replacement. -/
def dateStep (para : List Run) (d nd : List Char) : List Run :=
  (replace_text_in_runs para d nd).2

/-- Step B of the per-paragraph loop body (word.py lines 133-141): search
the recomputed concatenated text with f"({re.escape(name_prefix)}.*)";
on a match, strip the captured group and replace it with
f"{name_prefix} {new_name}". -/
def nameLineStep (para : List Run) (np nn : List Char) : List Run :=
  match findSub (fullText para) np with
  | none => para
  | some i =>
    (replace_text_in_runs para (stripPy (regexGroup (fullText para) np i)) (np ++ ' ' :: nn)).2

/-- The body of the per-paragraph loop of process_all_text_locations
(word.py lines 129-141 and 147-159), written out exactly as the Python
code runs it: date replacement first, then the name-line search over the
recomputed concatenated text. -/
def processParagraph (para : List Run) (d nd np nn : List Char) : List Run :=
  let p1 := (replace_text_in_runs para d nd).2
  let full := fullText p1
  match findSub full np with
  | none => p1
  | some i =>
    (replace_text_in_runs p1
      (stripPy (np ++ (full.drop (i + np.length)).takeWhile (fun c => c != '\n')))
      (np ++ ' ' :: nn)).2

/-- A document: top-level paragraphs plus tables; a table is a list of
rows, a row a list of cells, a cell a list of paragraphs. -/
structure Document where
  paragraphs : List (List Run)
  tables : List (List (List (List (List Run))))
deriving DecidableEq, Repr

/-- process_all_text_locations (word.py lines 121-159): apply the
paragraph body to every top-level paragraph and to every paragraph of
every cell of every row of every table. -/
def process_all_text_locations (doc : Document) (d nd np nn : List Char) : Document :=
  ⟨doc.paragraphs.map (fun p => processParagraph p d nd np nn),
   doc.tables.map (fun tbl => tbl.map (fun row => row.map (fun cell =>
     cell.map (fun p => processParagraph p d nd np nn))))⟩

/-- The batch loop of generate_monthly_reports_docx (word.py lines
200-250): the whole for-loop over the days of the month sits inside a
single try/except, so the per-day body (modelled by `save`, covering the
copy/substitute/save work for one day) is attempted day by day until the
first failure; that exception escapes the loop and is caught and printed
outside it.  The result is the list of days whose body was attempted,
paired with the reported diagnostic (none when every day succeeded). -/
def runBatch : List Nat → (Nat → Except String Unit) → List Nat × Option String
  | [], _ => ([], none)
  | day :: rest, save =>
    match save day with
    | Except.ok _ =>
      let r := runBatch rest save
      (day :: r.1, r.2)
    | Except.error e => ([day], some e)

/-
Basic lemmas about the embedding.
-/

theorem copy_font_style_default (f : Font) : copy_font_style f defaultFont = f := by
  obtain ⟨n, sz, b, it, un, st, su, sp, c, h⟩ := f
  cases c <;> cases h <;> rfl

theorem addRun_eq (t : List Char) (sty : String) (f : Font) : addRun t sty f = ⟨t, sty, f⟩ := by
  simp [addRun, copy_font_style_default]

theorem explode_nil : explode [] = [] := rfl

theorem explode_cons (r : Run) (rest : List Run) :
    explode (r :: rest) = r.text.map (fun c => (c, r.style, r.font)) ++ explode rest := rfl

theorem explode_append (a b : List Run) : explode (a ++ b) = explode a ++ explode b := by
  induction a with
  | nil => rfl
  | cons r rest ih => simp [explode_cons, ih]

theorem map_fst_tagged (t : List Char) (sty : String) (f : Font) :
    (t.map (fun c => (c, sty, f))).map Prod.fst = t := by
  induction t with
  | nil => rfl
  | cons c rest ih => simp [ih]

theorem fullText_eq_map_fst (p : List Run) : fullText p = (explode p).map Prod.fst := by
  induction p with
  | nil => rfl
  | cons r rest ih =>
    simp only [fullText, explode_cons, List.map_append, ih]
    rw [map_fst_tagged]

theorem length_explode (p : List Run) : (explode p).length = (fullText p).length := by
  rw [fullText_eq_map_fst, List.length_map]

/-
Properties of the substring search findSub.
-/

theorem isPrefixOf_true_iff (p q : List Char) : p.isPrefixOf q = true ↔ p <+: q := by
  induction p generalizing q with
  | nil => simp [List.isPrefixOf]
  | cons a p ih =>
    cases q with
    | nil => simp [List.isPrefixOf]
    | cons b q => simp [List.isPrefixOf, ih, List.cons_prefix_cons]

theorem findSub_isPre {hay pat : List Char} {s : Nat} (h : findSub hay pat = some s) :
    pat <+: hay.drop s := by
  induction hay generalizing s with
  | nil =>
    by_cases hp : pat.isPrefixOf ([] : List Char)
    · rw [findSub, if_pos hp] at h
      obtain rfl : (0 : Nat) = s := Option.some.inj h
      exact (isPrefixOf_true_iff pat []).mp hp
    · rw [findSub, if_neg hp] at h
      exact absurd h (by simp)
  | cons c t ih =>
    by_cases hp : pat.isPrefixOf (c :: t)
    · rw [findSub, if_pos hp] at h
      obtain rfl : (0 : Nat) = s := Option.some.inj h
      exact (isPrefixOf_true_iff pat (c :: t)).mp hp
    · rw [findSub, if_neg hp] at h
      obtain ⟨s', hs', rfl⟩ := Option.map_eq_some'.mp h
      simpa using ih hs'

theorem findSub_le_length {hay pat : List Char} {s : Nat} (h : findSub hay pat = some s) :
    s ≤ hay.length := by
  induction hay generalizing s with
  | nil =>
    by_cases hp : pat.isPrefixOf ([] : List Char)
    · rw [findSub, if_pos hp] at h
      obtain rfl : (0 : Nat) = s := Option.some.inj h
      exact Nat.le_refl 0
    · rw [findSub, if_neg hp] at h
      exact absurd h (by simp)
  | cons c t ih =>
    by_cases hp : pat.isPrefixOf (c :: t)
    · rw [findSub, if_pos hp] at h
      obtain rfl : (0 : Nat) = s := Option.some.inj h
      exact Nat.zero_le _
    · rw [findSub, if_neg hp] at h
      obtain ⟨s', hs', rfl⟩ := Option.map_eq_some'.mp h
      simpa using ih hs'

theorem findSub_bound {hay pat : List Char} {s : Nat} (h : findSub hay pat = some s) :
    s + pat.length ≤ hay.length := by
  have h1 := findSub_le_length h
  have h2 : pat.length ≤ (hay.drop s).length := (findSub_isPre h).length_le
  rw [List.length_drop] at h2
  omega

theorem findSub_min {hay pat : List Char} {s : Nat} (h : findSub hay pat = some s) :
    ∀ j, j < s → ¬ pat <+: hay.drop j := by
  induction hay generalizing s with
  | nil =>
    by_cases hp : pat.isPrefixOf ([] : List Char)
    · rw [findSub, if_pos hp] at h
      obtain rfl : (0 : Nat) = s := Option.some.inj h
      intro j hj
      exact absurd hj (by omega)
    · rw [findSub, if_neg hp] at h
      exact absurd h (by simp)
  | cons c t ih =>
    by_cases hp : pat.isPrefixOf (c :: t)
    · rw [findSub, if_pos hp] at h
      obtain rfl : (0 : Nat) = s := Option.some.inj h
      intro j hj
      exact absurd hj (by omega)
    · rw [findSub, if_neg hp] at h
      obtain ⟨s', hs', rfl⟩ := Option.map_eq_some'.mp h
      intro j hj
      cases j with
      | zero =>
        intro hcontra
        exact hp ((isPrefixOf_true_iff pat (c :: t)).mpr hcontra)
      | succ j' =>
        have : j' < s' := by omega
        simpa using ih hs' j' this

theorem findSub_decomp {hay pat : List Char} {s : Nat} (h : findSub hay pat = some s) :
    hay = hay.take s ++ pat ++ hay.drop (s + pat.length) := by
  obtain ⟨u, hu⟩ := findSub_isPre h
  have hdrop : hay.drop (s + pat.length) = u := by
    rw [← List.drop_drop, ← hu]
    exact List.drop_left pat u
  calc hay = hay.take s ++ hay.drop s := (List.take_append_drop s hay).symm
    _ = hay.take s ++ (pat ++ u) := by rw [hu]
    _ = hay.take s ++ pat ++ hay.drop (s + pat.length) := by rw [hdrop, List.append_assoc]

theorem findSub_occurs {hay pat : List Char} {s : Nat} (h : findSub hay pat = some s) :
    pat <:+: hay :=
  ⟨hay.take s, hay.drop (s + pat.length), (findSub_decomp h).symm⟩

theorem findSub_ne_none_of_occurs {hay pat : List Char} (h : pat <:+: hay) :
    findSub hay pat ≠ none := by
  induction hay with
  | nil =>
    have : pat = [] := List.eq_nil_of_length_eq_zero (by
      have := h.length_le
      simpa using this)
    subst this
    rw [findSub, if_pos (by simp [List.isPrefixOf])]
    simp
  | cons c t ih =>
    by_cases hp : pat.isPrefixOf (c :: t)
    · rw [findSub, if_pos hp]
      simp
    · rw [findSub, if_neg hp]
      obtain ⟨u, v, huv⟩ := h
      cases u with
      | nil =>
        exact absurd ((isPrefixOf_true_iff pat (c :: t)).mpr ⟨v, by simpa using huv⟩) hp
      | cons a u' =>
        obtain ⟨hac, hrest⟩ : a = c ∧ u' ++ (pat ++ v) = t := by simpa using huv
        have ht : pat <:+: t := ⟨u', v, by simpa [List.append_assoc] using hrest⟩
        have := ih ht
        cases hfs : findSub t pat with
        | none => exact absurd hfs this
        | some s' => simp [hfs]

/-
Pure list-algebra lemmas about the segment arithmetic of the rebuild loop.
T stands for the character-level view of the run at the cursor, E' for the
view of the remaining runs.
-/

theorem explode_fragment (X : List Char) (sty : String) (f : Font) :
    explode (if X ≠ [] then [addRun X sty f] else []) = X.map (fun c => (c, sty, f)) := by
  by_cases h : X = []
  · simp [h, explode_nil]
  · simp [h, explode_cons, explode_nil, addRun_eq]

theorem takeSeg {α : Type} (T E' : List α) (s cur : Nat)
    (h2 : s - cur < T.length) :
    (T ++ E').take (s - cur) = T.take (s - cur) := by
  rw [List.take_append_eq_append_take]
  have : s - cur - T.length = 0 := by omega
  rw [this]
  simp

theorem map_take_comm {β : Type} (t : List Char) (f : Char → β) (k : Nat) :
    (t.take k).map f = (t.map f).take k := by
  induction t generalizing k with
  | nil => simp
  | cons c rest ih =>
    cases k with
    | zero => simp
    | succ k' => simp [ih]

theorem map_drop_comm {β : Type} (t : List Char) (f : Char → β) (k : Nat) :
    (t.drop k).map f = (t.map f).drop k := by
  induction t generalizing k with
  | nil => simp
  | cons c rest ih =>
    cases k with
    | zero => simp
    | succ k' => simp [ih]

theorem dropSeg {α : Type} (T E' : List α) (s e cur : Nat)
    (hov : max cur s < min (cur + T.length) e) (hse : s < e) :
    T.drop (min (cur + T.length) e - cur) ++ (E'.take (s - (cur + T.length)) ++ E'.drop (e - (cur + T.length)))
      = (T ++ E').drop (e - cur) := by
  rw [List.drop_append_eq_append_drop]
  have htk : s - (cur + T.length) = 0 := by omega
  rw [htk]
  have hdr : e - (cur + T.length) = e - cur - T.length := by omega
  rw [hdr]
  rcases le_or_lt e (cur + T.length) with hle | hlt
  · have : min (cur + T.length) e - cur = e - cur := by omega
    rw [this]
    simp
  · have ha : min (cur + T.length) e - cur = T.length := by omega
    have hb : T.length ≤ e - cur := by omega
    rw [ha, List.drop_length, List.drop_eq_nil_of_le hb]
    simp

theorem headSeg {α : Type} (T E' : List α) (k : Nat) (h : k < T.length) :
    ((T ++ E').drop k).head? = (T.drop k).head? := by
  rw [List.drop_append_eq_append_drop]
  have hne : T.drop k ≠ [] := by
    intro hcon
    have := congrArg List.length hcon
    simp at this
    omega
  cases hd : T.drop k with
  | nil => exact absurd hd hne
  | cons a t => simp [hd]

theorem segNoOverlapTake {α : Type} (T E' : List α) (s cur : Nat)
    (h : cur + T.length ≤ s) :
    (T ++ E').take (s - cur) = T ++ E'.take (s - (cur + T.length)) := by
  rw [List.take_append_eq_append_take]
  have h1 : T.length ≤ s - cur := by omega
  have h2 : s - cur - T.length = s - (cur + T.length) := by omega
  rw [List.take_of_length_le h1, h2]

theorem segNoOverlapDrop {α : Type} (T E' : List α) (e cur : Nat)
    (h : cur + T.length ≤ e) :
    (T ++ E').drop (e - cur) = T.drop (e - cur) ++ E'.drop (e - (cur + T.length)) := by
  rw [List.drop_append_eq_append_drop]
  have h2 : e - cur - T.length = e - (cur + T.length) := by omega
  rw [h2]

/-- Character-level effect of the rebuild loop once the replacement has
already been emitted (replacement_done = True): the characters of the
remaining runs that fall inside [s, e) are dropped, everything else is
kept with its style and font unchanged. -/
theorem explode_rebuildRuns_done (runs : List Run) (s e : Nat) (new : List Char) :
    ∀ cur, s < e →
    explode (rebuildRuns runs s e new cur true)
      = (explode runs).take (s - cur) ++ (explode runs).drop (e - cur) := by
  induction runs with
  | nil =>
    intro cur hse
    simp [rebuildRuns, explode_nil]
  | cons r rest ih =>
    intro cur hse
    by_cases hov : max cur s < min (cur + r.text.length) e
    · simp only [rebuildRuns, if_pos hov, if_neg (by simp : ¬ (true = false))]
      simp only [if_true]
      rw [explode_append, explode_append, explode_append]
      rw [explode_fragment, explode_fragment, explode_nil]
      rw [ih (cur + r.text.length) hse]
      rw [explode_cons]
      have hT : (r.text.map (fun c => (c, r.style, r.font))).length = r.text.length := by
        simp
      have hmax : max cur s - cur = s - cur := by omega
      have hn : 0 < r.text.length := by omega
      have hscn : s - cur < r.text.length := by omega
      rw [map_take_comm, map_drop_comm, hmax]
      have htake : (r.text.map (fun c => (c, r.style, r.font)) ++ explode rest).take (s - cur)
          = (r.text.map (fun c => (c, r.style, r.font))).take (s - cur) :=
        takeSeg _ _ s cur (by omega)
      rw [htake]
      have goalDrop := dropSeg (r.text.map (fun c => (c, r.style, r.font))) (explode rest)
        s e cur (by rw [hT]; exact hov) hse
      rw [hT] at goalDrop
      rw [← goalDrop]
      simp [List.append_assoc]
    · simp only [rebuildRuns, if_neg hov]
      rw [explode_cons, explode_cons, addRun_eq]
      rw [ih (cur + r.text.length) hse]
      have hT : (r.text.map (fun c => (c, r.style, r.font))).length = r.text.length := by
        simp
      have hcases : r.text.length = 0 ∨ cur + r.text.length ≤ s ∨ e ≤ cur := by omega
      rcases hcases with h0 | hle | hec
      · have hTnil : r.text.map (fun c => (c, r.style, r.font)) = [] := by
          apply List.eq_nil_of_length_eq_zero
          simpa using h0
        rw [hTnil]
        simp only [List.nil_append]
        have e1 : s - (cur + r.text.length) = s - cur := by omega
        have e2 : e - (cur + r.text.length) = e - cur := by omega
        rw [e1, e2]
      · rw [segNoOverlapTake _ _ s cur (by omega), segNoOverlapDrop _ _ e cur (by omega)]
        rw [hT]
        have hdT : (r.text.map (fun c => (c, r.style, r.font))).drop (e - cur) = [] := by
          apply List.drop_eq_nil_of_le
          rw [hT]
          omega
        rw [hdT]
        simp [List.append_assoc]
      · have h1 : s - cur = 0 := by omega
        have h2 : e - cur = 0 := by omega
        have h3 : s - (cur + r.text.length) = 0 := by omega
        have h4 : e - (cur + r.text.length) = 0 := by omega
        rw [h1, h2, h3, h4]
        simp

/-- Master decomposition of the rebuild loop while the replacement is
still pending (replacement_done = False): the output is the faithfully
re-emitted part before the match, then a single run holding the
replacement text with the style and font copy of the first overlapping
run, then the faithfully re-emitted part after the match.  The head of
the character-level view at position s shows that the first overlapping
run is the run owning the character at the match start. -/
theorem rebuild_master (runs : List Run) (s e : Nat) (new : List Char) :
    ∀ cur, cur ≤ s → s < e → s - cur < (explode runs).length →
    ∃ r0 A B c,
      firstOverlapRun runs s e cur = some r0 ∧
      rebuildRuns runs s e new cur false
        = A ++ Run.mk new r0.style (copy_font_style r0.font defaultFont) :: B ∧
      explode A = (explode runs).take (s - cur) ∧
      explode B = (explode runs).drop (e - cur) ∧
      ((explode runs).drop (s - cur)).head? = some (c, r0.style, r0.font) := by
  induction runs with
  | nil =>
    intro cur h1 h2 h3
    simp [explode_nil] at h3
  | cons r rest ih =>
    intro cur h1 h2 h3
    have hT : (r.text.map (fun c => (c, r.style, r.font))).length = r.text.length := by simp
    by_cases hov : max cur s < min (cur + r.text.length) e
    · have hs' : s - cur < r.text.length := by omega
      have hmax : max cur s - cur = s - cur := by omega
      have hid : s - cur < r.text.length := hs'
      refine ⟨r,
        (if r.text.take (max cur s - cur) ≠ []
          then [addRun (r.text.take (max cur s - cur)) r.style r.font] else []),
        (if r.text.drop (min (cur + r.text.length) e - cur) ≠ []
          then [addRun (r.text.drop (min (cur + r.text.length) e - cur)) r.style r.font] else [])
          ++ rebuildRuns rest s e new (cur + r.text.length) true,
        r.text.get ⟨s - cur, hid⟩, ?_, ?_, ?_, ?_, ?_⟩
      · simp [firstOverlapRun, hov]
      · simp only [rebuildRuns, if_pos hov]
        have hmid : (if (false : Bool) then ([] : List Run) else [addRun new r.style r.font])
            = [addRun new r.style r.font] := rfl
        rw [hmid]
        simp [addRun, List.append_assoc]
      · rw [explode_fragment, map_take_comm, hmax, explode_cons]
        exact (takeSeg _ _ s cur (by simpa using hs')).symm
      · rw [explode_append, explode_fragment, map_drop_comm,
          explode_rebuildRuns_done rest s e new (cur + r.text.length) h2, explode_cons]
        have goalDrop := dropSeg (r.text.map (fun c => (c, r.style, r.font))) (explode rest)
          s e cur (by rw [hT]; exact hov) h2
        rw [hT] at goalDrop
        exact goalDrop
      · rw [explode_cons]
        rw [headSeg _ _ (s - cur) (by simpa using hs')]
        rw [← map_drop_comm]
        rw [List.drop_eq_getElem_cons hs']
        simp
    · have hcs : cur + r.text.length ≤ s := by omega
      have h3' : s - (cur + r.text.length) < (explode rest).length := by
        rw [explode_cons, List.length_append, hT] at h3
        omega
      obtain ⟨r0, A', B', c, hf, hr, hA, hB, hh⟩ := ih (cur + r.text.length) (by omega) h2 h3'
      refine ⟨r0, addRun r.text r.style r.font :: A', B', c, ?_, ?_, ?_, ?_, ?_⟩
      · simp [firstOverlapRun, hov, hf]
      · simp only [rebuildRuns, if_neg hov]
        rw [hr]
        simp
      · rw [addRun_eq, explode_cons, explode_cons, hA]
        have hst := segNoOverlapTake (r.text.map (fun c => (c, r.style, r.font))) (explode rest)
          s cur (by rw [hT]; omega)
        rw [hT] at hst
        exact hst.symm
      · rw [hB, explode_cons]
        have hdr := segNoOverlapDrop (r.text.map (fun c => (c, r.style, r.font))) (explode rest)
          e cur (by rw [hT]; omega)
        rw [hT] at hdr
        rw [hdr]
        have hnil : (r.text.map (fun c => (c, r.style, r.font))).drop (e - cur) = [] := by
          apply List.drop_eq_nil_of_le
          rw [hT]
          omega
        rw [hnil]
        simp
      · rw [explode_cons, List.drop_append_eq_append_drop]
        have hnil : (r.text.map (fun c => (c, r.style, r.font))).drop (s - cur) = [] := by
          apply List.drop_eq_nil_of_le
          rw [hT]
          omega
        rw [hnil, hT]
        have : s - cur - r.text.length = s - (cur + r.text.length) := by omega
        rw [this]
        simpa using hh

/-
The lookup policy and the full characterization of a successful replace.
-/

theorem nbspVariant_length (l : List Char) : (nbspVariant l).length = l.length := by
  simp [nbspVariant]

theorem chosenMatch_findSub {full old m : List Char} {s : Nat}
    (h : chosenMatch full old = some (m, s)) :
    findSub full m = some s ∧ (m = old ∨ m = nbspVariant old) := by
  unfold chosenMatch at h
  cases h1 : findSub full old with
  | some s1 =>
    rw [h1] at h
    obtain ⟨rfl, rfl⟩ : old = m ∧ s1 = s := by
      have := Option.some.inj h
      exact ⟨congrArg Prod.fst this, congrArg Prod.snd this⟩
    exact ⟨h1, Or.inl rfl⟩
  | none =>
    rw [h1] at h
    cases h2 : findSub full (nbspVariant old) with
    | some s2 =>
      rw [h2] at h
      obtain ⟨rfl, rfl⟩ : nbspVariant old = m ∧ s2 = s := by
        have := Option.some.inj h
        exact ⟨congrArg Prod.fst this, congrArg Prod.snd this⟩
      exact ⟨h2, Or.inr rfl⟩
    | none =>
      rw [h2] at h
      exact absurd h (by simp)

theorem chosenMatch_of_findSub {full old : List Char} {s : Nat}
    (h : findSub full old = some s) : chosenMatch full old = some (old, s) := by
  unfold chosenMatch
  rw [h]

theorem chosenMatch_none {full old : List Char}
    (h1 : findSub full old = none) (h2 : findSub full (nbspVariant old) = none) :
    chosenMatch full old = none := by
  unfold chosenMatch
  rw [h1, h2]

/-- Full characterization of replace_text_in_runs when the lookup policy
finds the search string m (the literal old text or its non-breaking-space
variant) at index s: the call returns true, the new run list splits as
re-emitted-head ++ replacement-run ++ re-emitted-tail, and at the
character level the paragraph is the old one with [s, s+|m|) replaced by
the new text tagged with the style and font of the first overlapping run
(which owns the character at position s). -/
theorem replace_found (para : List Run) (old new m : List Char) (s : Nat)
    (hne : old ≠ [])
    (hch : chosenMatch (fullText para) old = some (m, s)) :
    ∃ r0 A B c,
      firstOverlapRun para s (s + m.length) 0 = some r0 ∧
      (replace_text_in_runs para old new).1 = true ∧
      (replace_text_in_runs para old new).2
        = A ++ Run.mk new r0.style (copy_font_style r0.font defaultFont) :: B ∧
      explode A = (explode para).take s ∧
      explode B = (explode para).drop (s + m.length) ∧
      ((explode para).drop s).head? = some (c, r0.style, r0.font) ∧
      explode (replace_text_in_runs para old new).2
        = (explode para).take s ++ new.map (fun ch => (ch, r0.style, r0.font))
          ++ (explode para).drop (s + m.length) := by
  obtain ⟨hfs, hm⟩ := chosenMatch_findSub hch
  have hmne : m ≠ [] := by
    rcases hm with rfl | rfl
    · exact hne
    · intro hcon
      apply hne
      have := congrArg List.length hcon
      rw [nbspVariant_length] at this
      exact List.eq_nil_of_length_eq_zero (by simpa using this)
  have hlen : 0 < m.length := List.length_pos.mpr hmne
  have hbound := findSub_bound hfs
  have hsx : s - 0 < (explode para).length := by
    rw [length_explode]
    omega
  obtain ⟨r0, A, B, c, hf, hr, hA, hB, hh⟩ :=
    rebuild_master para s (s + m.length) new 0 (by omega) (by omega) hsx
  have hrepl : replace_text_in_runs para old new
      = (true, rebuildRuns para s (s + m.length) new 0 false) := by
    unfold replace_text_in_runs
    rw [hch]
  simp only [Nat.sub_zero] at hA hB hh
  refine ⟨r0, A, B, c, hf, by rw [hrepl], by rw [hrepl]; exact hr, hA, hB, hh, ?_⟩
  rw [hrepl]
  simp only [hr, explode_append, explode_cons, hA, hB, copy_font_style_default]
  simp [List.append_assoc]

/-- Character-level text of a successful replace: the concatenated text
with [s, s+|m|) replaced by the new text. -/
theorem replace_found_fullText (para : List Run) (old new m : List Char) (s : Nat)
    (hne : old ≠ [])
    (hch : chosenMatch (fullText para) old = some (m, s)) :
    fullText (replace_text_in_runs para old new).2
      = (fullText para).take s ++ new ++ (fullText para).drop (s + m.length) := by
  obtain ⟨r0, A, B, c, hf, hb, hr, hA, hB, hh, hx⟩ := replace_found para old new m s hne hch
  rw [fullText_eq_map_fst, hx]
  simp only [List.map_append, map_fst_tagged]
  rw [fullText_eq_map_fst]
  congr 1
  · congr 1
    simp [List.map_take]
  · simp [List.map_drop]

theorem map_fst_take (E : List (Char × String × Font)) (k : Nat) :
    (E.take k).map Prod.fst = (E.map Prod.fst).take k := by
  simp [List.map_take]

theorem map_fst_drop (E : List (Char × String × Font)) (k : Nat) :
    (E.drop k).map Prod.fst = (E.map Prod.fst).drop k := by
  simp [List.map_drop]

/-
Claim theorems and witnesses.
-/

/-- Concrete two-run paragraph "ab" + "cd" used by witnesses. -/
def paraAB : List Run := [⟨['a', 'b'], "s", defaultFont⟩, ⟨['c', 'd'], "t", defaultFont⟩]

/-- C1: for every paragraph and every non-empty oldText that occurs in
the paragraph's concatenated run text (literally, or after replacing
every ordinary space by a non-breaking space), replace returns true and
afterwards the concatenation of the run texts equals the original
concatenated text with the matched occurrence [s, s+|m|) replaced by
newText. -/
theorem C1_replace_rewrites_match (para : List Run) (old new : List Char)
    (hne : old ≠ [])
    (hocc : old <:+: fullText para ∨ nbspVariant old <:+: fullText para) :
    (replace_text_in_runs para old new).1 = true ∧
    ∃ m s, chosenMatch (fullText para) old = some (m, s) ∧
      (m = old ∨ m = nbspVariant old) ∧
      fullText para
        = (fullText para).take s ++ m ++ (fullText para).drop (s + m.length) ∧
      fullText (replace_text_in_runs para old new).2
        = (fullText para).take s ++ new ++ (fullText para).drop (s + m.length) := by
  have hex : ∃ m s, chosenMatch (fullText para) old = some (m, s) := by
    cases h1 : findSub (fullText para) old with
    | some s => exact ⟨old, s, chosenMatch_of_findSub h1⟩
    | none =>
      cases h2 : findSub (fullText para) (nbspVariant old) with
      | some s =>
        refine ⟨nbspVariant old, s, ?_⟩
        unfold chosenMatch
        rw [h1, h2]
      | none =>
        exfalso
        rcases hocc with ho | ho
        · exact findSub_ne_none_of_occurs ho h1
        · exact findSub_ne_none_of_occurs ho h2
  obtain ⟨m, s, hch⟩ := hex
  obtain ⟨hfs, hm⟩ := chosenMatch_findSub hch
  refine ⟨?_, m, s, hch, hm, findSub_decomp hfs,
    replace_found_fullText para old new m s hne hch⟩
  unfold replace_text_in_runs
  rw [hch]

theorem C1_witness :
    (['b', 'c'] : List Char) ≠ [] ∧
    ((['b', 'c'] : List Char) <:+: fullText paraAB
      ∨ nbspVariant ['b', 'c'] <:+: fullText paraAB) ∧
    ((replace_text_in_runs paraAB ['b', 'c'] ['X']).1 = true ∧
      ∃ m s, chosenMatch (fullText paraAB) ['b', 'c'] = some (m, s) ∧
        (m = ['b', 'c'] ∨ m = nbspVariant ['b', 'c']) ∧
        fullText paraAB
          = (fullText paraAB).take s ++ m ++ (fullText paraAB).drop (s + m.length) ∧
        fullText (replace_text_in_runs paraAB ['b', 'c'] ['X']).2
          = (fullText paraAB).take s ++ ['X'] ++ (fullText paraAB).drop (s + m.length)) :=
  ⟨by decide, by decide,
    C1_replace_rewrites_match paraAB ['b', 'c'] ['X'] (by decide) (by decide)⟩

/-- C2: the replacement text is emitted exactly once — the rewritten run
sequence is head-runs ++ one replacement run ++ tail-runs, where the
head runs carry exactly the text before the match and the tail runs
exactly the text after it — and the replacement run carries the style
reference and the field-by-field font copy of the first original run
overlapping the matched range. -/
theorem C2_replacement_once_first_style (para : List Run) (old new m : List Char) (s : Nat)
    (hne : old ≠ [])
    (hch : chosenMatch (fullText para) old = some (m, s)) :
    ∃ r0 A B, firstOverlapRun para s (s + m.length) 0 = some r0 ∧
      (replace_text_in_runs para old new).2
        = A ++ Run.mk new r0.style (copy_font_style r0.font defaultFont) :: B ∧
      fullText A = (fullText para).take s ∧
      fullText B = (fullText para).drop (s + m.length) := by
  obtain ⟨r0, A, B, c, hf, hb, hr, hA, hB, hh, hx⟩ := replace_found para old new m s hne hch
  refine ⟨r0, A, B, hf, hr, ?_, ?_⟩
  · rw [fullText_eq_map_fst, hA, map_fst_take, ← fullText_eq_map_fst]
  · rw [fullText_eq_map_fst, hB, map_fst_drop, ← fullText_eq_map_fst]

theorem C2_witness :
    (['b', 'c'] : List Char) ≠ [] ∧
    chosenMatch (fullText paraAB) ['b', 'c'] = some (['b', 'c'], 1) ∧
    (∃ r0 A B, firstOverlapRun paraAB 1 (1 + (['b', 'c'] : List Char).length) 0 = some r0 ∧
      (replace_text_in_runs paraAB ['b', 'c'] ['X']).2
        = A ++ Run.mk ['X'] r0.style (copy_font_style r0.font defaultFont) :: B ∧
      fullText A = (fullText paraAB).take 1 ∧
      fullText B = (fullText paraAB).drop (1 + (['b', 'c'] : List Char).length)) :=
  ⟨by decide, by decide,
    C2_replacement_once_first_style paraAB ['b', 'c'] ['X'] ['b', 'c'] 1 (by decide) (by decide)⟩

/-- C3: after a successful replace, every character before the matched
range, and every character after it, is carried (in order) with exactly
the character value, style reference and font of the run it originated
from; only the matched range's characters change.  The hypotheses follow
the claim's scope: at least two runs, match spanning a run boundary. -/
theorem C3_outside_chars_keep_font (para : List Run) (old new m : List Char) (s : Nat)
    (hne : old ≠ [])
    (hch : chosenMatch (fullText para) old = some (m, s))
    (hruns : 2 ≤ para.length)
    (hspan : 2 ≤ overlapCount para s (s + m.length) 0) :
    (explode (replace_text_in_runs para old new).2).take s = (explode para).take s ∧
    (explode (replace_text_in_runs para old new).2).drop (s + new.length)
      = (explode para).drop (s + m.length) := by
  obtain ⟨r0, A, B, c, hf, hb, hr, hA, hB, hh, hx⟩ := replace_found para old new m s hne hch
  have hsle : s ≤ (explode para).length := by
    have := findSub_bound (chosenMatch_findSub hch).1
    have hE := length_explode para
    omega
  have hlenA : ((explode para).take s).length = s := by
    rw [List.length_take]
    omega
  constructor
  · rw [hx, List.append_assoc, List.take_append_eq_append_take, hlenA, List.take_take]
    have h1 : min s s = s := by omega
    have h2 : s - s = 0 := by omega
    rw [h1, h2]
    simp
  · rw [hx]
    have hlenAN : ((explode para).take s
        ++ (new.map (fun ch => (ch, r0.style, r0.font)))).length = s + new.length := by
      rw [List.length_append, hlenA, List.length_map]
    exact List.drop_left' hlenAN

theorem C3_witness :
    (['b', 'c'] : List Char) ≠ [] ∧
    chosenMatch (fullText paraAB) ['b', 'c'] = some (['b', 'c'], 1) ∧
    2 ≤ paraAB.length ∧
    2 ≤ overlapCount paraAB 1 (1 + (['b', 'c'] : List Char).length) 0 ∧
    ((explode (replace_text_in_runs paraAB ['b', 'c'] ['X', 'Y']).2).take 1
        = (explode paraAB).take 1 ∧
      (explode (replace_text_in_runs paraAB ['b', 'c'] ['X', 'Y']).2).drop (1 + (['X', 'Y'] : List Char).length)
        = (explode paraAB).drop (1 + (['b', 'c'] : List Char).length)) :=
  ⟨by decide, by decide, by decide, by decide,
    C3_outside_chars_keep_font paraAB ['b', 'c'] ['X', 'Y'] ['b', 'c'] 1
      (by decide) (by decide) (by decide) (by decide)⟩

/-- C4: when oldText occurs neither literally nor in non-breaking-space
form, replace returns false and the run sequence is returned unchanged —
no partial mutation. -/
theorem C4_miss_is_noop (para : List Run) (old new : List Char)
    (h1 : ¬ old <:+: fullText para)
    (h2 : ¬ nbspVariant old <:+: fullText para) :
    replace_text_in_runs para old new = (false, para) := by
  have hf1 : findSub (fullText para) old = none := by
    cases h : findSub (fullText para) old with
    | none => rfl
    | some s => exact absurd (findSub_occurs h) h1
  have hf2 : findSub (fullText para) (nbspVariant old) = none := by
    cases h : findSub (fullText para) (nbspVariant old) with
    | none => rfl
    | some s => exact absurd (findSub_occurs h) h2
  unfold replace_text_in_runs
  rw [chosenMatch_none hf1 hf2]

theorem C4_witness :
    (¬ (['z', ' ', 'z'] : List Char) <:+: fullText paraAB) ∧
    (¬ nbspVariant ['z', ' ', 'z'] <:+: fullText paraAB) ∧
    replace_text_in_runs paraAB ['z', ' ', 'z'] ['X'] = (false, paraAB) :=
  ⟨by decide, by decide, C4_miss_is_noop paraAB ['z', ' ', 'z'] ['X'] (by decide) (by decide)⟩

/-- Concrete paragraph whose text contains the non-breaking-space variant
of "a b" before the literal "a b". -/
def paraNbsp : List Run := [⟨['a', nbspChar, 'b', 'a', ' ', 'b'], "s", defaultFont⟩]

/-- C9: when the literal oldText occurs, the replacement rewrites exactly
its leftmost occurrence — no earlier position matches, the prefix before
it and the suffix after it survive verbatim (so every later occurrence
stays in place) — and the literal form is preferred even when the
non-breaking-space variant also occurs. -/
theorem C9_leftmost_literal_preferred (para : List Run) (old new : List Char) (s : Nat)
    (hne : old ≠ [])
    (hfind : findSub (fullText para) old = some s) :
    chosenMatch (fullText para) old = some (old, s) ∧
    (∀ j, j < s → ¬ old <+: (fullText para).drop j) ∧
    (replace_text_in_runs para old new).1 = true ∧
    fullText (replace_text_in_runs para old new).2
      = (fullText para).take s ++ new ++ (fullText para).drop (s + old.length) := by
  have hch := chosenMatch_of_findSub hfind
  refine ⟨hch, findSub_min hfind, ?_, replace_found_fullText para old new old s hne hch⟩
  unfold replace_text_in_runs
  rw [hch]

theorem C9_witness :
    (['a', ' ', 'b'] : List Char) ≠ [] ∧
    findSub (fullText paraNbsp) ['a', ' ', 'b'] = some 3 ∧
    nbspVariant ['a', ' ', 'b'] <+: fullText paraNbsp ∧
    (chosenMatch (fullText paraNbsp) ['a', ' ', 'b'] = some (['a', ' ', 'b'], 3) ∧
      (∀ j, j < 3 → ¬ ['a', ' ', 'b'] <+: (fullText paraNbsp).drop j) ∧
      (replace_text_in_runs paraNbsp ['a', ' ', 'b'] ['Z']).1 = true ∧
      fullText (replace_text_in_runs paraNbsp ['a', ' ', 'b'] ['Z']).2
        = (fullText paraNbsp).take 3 ++ ['Z'] ++ (fullText paraNbsp).drop (3 + (['a', ' ', 'b'] : List Char).length)) :=
  ⟨by decide, by decide, by decide,
    C9_leftmost_literal_preferred paraNbsp ['a', ' ', 'b'] ['Z'] 3 (by decide) (by decide)⟩

theorem mem_fragment {X : List Char} {sty : String} {f : Font} {r : Run}
    (h : r ∈ (if X ≠ [] then [addRun X sty f] else ([] : List Run))) :
    r.text = X ∧ X ≠ [] := by
  by_cases hX : X = []
  · simp [hX] at h
  · simp [hX] at h
    rw [h, addRun_eq]
    exact ⟨rfl, hX⟩

theorem rebuild_no_empty_run (runs : List Run) (s e : Nat) (new : List Char) :
    ∀ cur done, (∀ r ∈ runs, r.text ≠ []) →
    ∀ r2 ∈ rebuildRuns runs s e new cur done, r2.text = [] → new = [] := by
  induction runs with
  | nil =>
    intro cur done hall r2 hr2
    simp [rebuildRuns] at hr2
  | cons r rest ih =>
    intro cur done hall r2 hr2 hempty
    have hallRest : ∀ r' ∈ rest, r'.text ≠ [] := fun r' hmem => hall r' (List.mem_cons_of_mem r hmem)
    by_cases hov : max cur s < min (cur + r.text.length) e
    · simp only [rebuildRuns, if_pos hov, List.mem_append] at hr2
      rcases hr2 with ((hpre | hmid) | hpost) | htail
      · obtain ⟨ht, hne⟩ := mem_fragment hpre
        exact absurd (ht ▸ hempty) hne
      · cases done with
        | true => simp at hmid
        | false =>
          simp at hmid
          rw [hmid, addRun_eq] at hempty
          exact hempty
      · obtain ⟨ht, hne⟩ := mem_fragment hpost
        exact absurd (ht ▸ hempty) hne
      · exact ih (cur + r.text.length) true hallRest r2 htail hempty
    · simp only [rebuildRuns, if_neg hov, List.mem_cons] at hr2
      rcases hr2 with hhead | htail
      · rw [hhead, addRun_eq] at hempty
        exact absurd hempty (hall r (List.mem_cons_self r rest))
      · exact ih (cur + r.text.length) done hallRest r2 htail hempty

/-- C7: the rebuild never materializes a zero-length run for an empty
prefix or suffix fragment of an overlapping run (empty fragments are
omitted): when every original run is non-empty, the only way an empty
run can appear in the output is the replacement run itself with empty
newText.  In particular a match starting exactly at a run start or
ending exactly at a run end creates no spurious empty runs. -/
theorem C7_no_empty_fragment_runs (para : List Run) (old new : List Char)
    (hall : ∀ r ∈ para, r.text ≠ []) :
    ∀ r2 ∈ (replace_text_in_runs para old new).2, r2.text = [] → new = [] := by
  intro r2 hr2 hempty
  cases hch : chosenMatch (fullText para) old with
  | none =>
    unfold replace_text_in_runs at hr2
    rw [hch] at hr2
    exact absurd hempty (hall r2 hr2)
  | some ms =>
    obtain ⟨m, s⟩ := ms
    unfold replace_text_in_runs at hr2
    rw [hch] at hr2
    exact rebuild_no_empty_run para s (s + m.length) new 0 false hall r2 hr2 hempty

theorem C7_witness :
    (∀ r ∈ paraAB, r.text ≠ []) ∧
    (∀ r2 ∈ (replace_text_in_runs paraAB ['a', 'b'] ['X']).2, r2.text = [] → (['X'] : List Char) = []) :=
  ⟨by decide, C7_no_empty_fragment_runs paraAB ['a', 'b'] ['X'] (by decide)⟩

/-- Concrete paragraph for the C10 separation instance: the name prefix
appears only after the date substitution has run. -/
def C10para : List Run := [⟨['d'], "s", defaultFont⟩]

/-- C10: the per-paragraph body performs the date substitution first and
the name-line search operates on the recomputed text of the updated
paragraph (processParagraph is exactly nameLineStep after dateStep); the
concrete instance shows the match is taken from the post-substitution
text, not the original template text: the original text contains no
name prefix, yet the name replacement still fires on the date step's
output. -/
theorem C10_date_first_then_name_search (para : List Run) (d nd np nn : List Char) :
    processParagraph para d nd np nn = nameLineStep (dateStep para d nd) np nn ∧
    findSub (fullText C10para) ['P'] = none ∧
    processParagraph C10para ['d'] ['P'] ['P'] ['N'] ≠ dateStep C10para ['d'] ['P'] := by
  refine ⟨rfl, by decide, by decide⟩

/-- Concrete paragraph for the C5 witness. -/
def C5para : List Run := [⟨['P', ' ', 'x', ' '], "s", defaultFont⟩]

/-- Concrete paragraph for the C5 counterexample: the prefix-to-end match
begins with whitespace, so Python strip() removes more than trailing
whitespace. -/
def C5paraCex : List Run := [⟨[' ', 'X', ' ', 'a', ' '], "s", defaultFont⟩]

/-- C5 (amended): for every reachable paragraph the driver applies the
per-paragraph body; within it, after the date substitution, the name
step finds the first (leftmost) position where namePrefix occurs in the
recomputed concatenated text, takes the match from there up to the next
newline or the end of text, trims leading and trailing whitespace from
it, and invokes the Replacer to replace that trimmed match with
namePrefix ++ " " ++ newNameValue. -/
theorem C5_driver_name_line (doc : Document) (d nd np nn : List Char) :
    (process_all_text_locations doc d nd np nn).paragraphs
        = doc.paragraphs.map (fun p => processParagraph p d nd np nn) ∧
    (process_all_text_locations doc d nd np nn).tables
        = doc.tables.map (fun tbl => tbl.map (fun row => row.map (fun cell =>
            cell.map (fun p => processParagraph p d nd np nn)))) ∧
    ∀ para i, findSub (fullText (dateStep para d nd)) np = some i →
      (∀ j, j < i → ¬ np <+: (fullText (dateStep para d nd)).drop j) ∧
      processParagraph para d nd np nn
        = (replace_text_in_runs (dateStep para d nd)
            (stripPy (regexGroup (fullText (dateStep para d nd)) np i))
            (np ++ ' ' :: nn)).2 := by
  refine ⟨rfl, rfl, ?_⟩
  intro para i hfi
  refine ⟨findSub_min hfi, ?_⟩
  have h1 : processParagraph para d nd np nn = nameLineStep (dateStep para d nd) np nn := rfl
  rw [h1]
  unfold nameLineStep
  rw [hfi]

theorem C5_witness :
    (∀ j, j < 0 → ¬ (['P'] : List Char) <+: (fullText (dateStep C5para ['q'] ['q'])).drop j) ∧
    processParagraph C5para ['q'] ['q'] ['P'] ['N']
      = (replace_text_in_runs (dateStep C5para ['q'] ['q'])
          (stripPy (regexGroup (fullText (dateStep C5para ['q'] ['q'])) ['P'] 0))
          (['P'] ++ ' ' :: ['N'])).2 :=
  (C5_driver_name_line ⟨[C5para], []⟩ ['q'] ['q'] ['P'] ['N']).2.2 C5para 0 (by decide)

theorem C5_counterexample :
    findSub (fullText C5paraCex) [' ', 'X'] = some 0 ∧
    rstripPy ((fullText C5paraCex).drop 0) = [' ', 'X', ' ', 'a'] ∧
    processParagraph C5paraCex ['q'] ['q'] [' ', 'X'] ['N']
      ≠ (replace_text_in_runs (dateStep C5paraCex ['q'] ['q'])
          (rstripPy ((fullText (dateStep C5paraCex ['q'] ['q'])).drop 0))
          ([' ', 'X'] ++ ' ' :: ['N'])).2 := by
  refine ⟨by decide, by decide, by decide⟩

/-- C8 (amended): in the batch loop, once the per-day body fails, the
failure is caught outside the loop and reported; the failing day is the
last day attempted and no later day is attempted. -/
theorem C8_write_failure_stops_batch (pre : List Nat) (d : Nat) (post : List Nat)
    (save : Nat → Except String Unit) (e : String)
    (hok : ∀ x ∈ pre, save x = Except.ok ())
    (herr : save d = Except.error e) :
    runBatch (pre ++ d :: post) save = (pre ++ [d], some e) := by
  induction pre with
  | nil =>
    simp only [List.nil_append]
    unfold runBatch
    rw [herr]
  | cons x rest ih =>
    have hx : save x = Except.ok () := hok x (List.mem_cons_self x rest)
    have hrest : ∀ y ∈ rest, save y = Except.ok () :=
      fun y hy => hok y (List.mem_cons_of_mem x hy)
    simp only [List.cons_append]
    unfold runBatch
    rw [hx, ih hrest]

/-- The save collaborator used by the C8 counterexample: day 2 fails. -/
def saveFail2 : Nat → Except String Unit :=
  fun d => if d = 2 then Except.error "disk full" else Except.ok ()

theorem C8_counterexample :
    runBatch [1, 2, 3] saveFail2 = ([1, 2], some "disk full") ∧
    3 ∉ (runBatch [1, 2, 3] saveFail2).1 := by
  refine ⟨by decide, by decide⟩

theorem C8_witness :
    (∀ x ∈ ([1] : List Nat), saveFail2 x = Except.ok ()) ∧
    saveFail2 2 = Except.error "disk full" ∧
    runBatch ([1] ++ 2 :: [3]) saveFail2 = ([1] ++ [2], some "disk full") :=
  ⟨by intro x hx; simp at hx; subst hx; rfl, rfl,
    C8_write_failure_stops_batch [1] 2 [3] saveFail2 "disk full"
      (by intro x hx; simp at hx; subst hx; rfl) rfl⟩

theorem head_append {α : Type} (l l' : List α) (h : l ≠ []) : (l ++ l').head? = l.head? := by
  cases l with
  | nil => exact absurd rfl h
  | cons a t => simp

theorem head_take {α : Type} (l : List α) (k : Nat) (hk : 0 < k) :
    (l.take k).head? = l.head? := by
  cases l with
  | nil => simp
  | cons a t =>
    cases k with
    | zero => omega
    | succ k' => simp

theorem drop_XYD {α : Type} (X Y D : List α) (k k' : Nat)
    (h : X.length + Y.length ≤ k) (hk : k - (X.length + Y.length) = k') :
    ((X ++ Y) ++ D).drop k = D.drop k' := by
  rw [List.drop_append_eq_append_drop, List.drop_append_eq_append_drop]
  rw [List.drop_eq_nil_of_le (by omega), List.drop_eq_nil_of_le (by omega)]
  simp only [List.nil_append, List.length_append]
  rw [hk]

theorem take_XYD {α : Type} (X Y D : List α) (k k' : Nat)
    (h : X.length + Y.length ≤ k) (hk : k - (X.length + Y.length) = k') :
    ((X ++ Y) ++ D).take k = (X ++ Y) ++ D.take k' := by
  rw [List.take_append_eq_append_take]
  rw [List.take_of_length_le (by simp only [List.length_append]; omega)]
  simp only [List.length_append]
  rw [hk]

/-- Single-run paragraph "ab" used by the C6 counterexample. -/
def C6para : List Run := [⟨['a', 'b'], "s", defaultFont⟩]

theorem C6_counterexample :
    findSub (fullText C6para) ['a'] = some 0 ∧
    findSub (fullText C6para) ['b'] = some 1 ∧
    0 + (['a'] : List Char).length ≤ 1 ∧
    fullText ((replace_text_in_runs ((replace_text_in_runs C6para ['a'] ['b']).2) ['b'] ['c']).2)
      ≠ fullText ((replace_text_in_runs ((replace_text_in_runs C6para ['b'] ['c']).2) ['a'] ['b']).2) := by
  refine ⟨by decide, by decide, by decide, by decide⟩

/-- C6 (amended): when the two matched ranges are disjoint and neither
replacement disturbs the leftmost occurrence of the other search string
(the other oldText is still found at the corresponding shifted position
in the intermediate paragraph), the two orders of replacement produce
the same character sequence with the same style reference and the same
font on every character. -/
theorem C6_disjoint_replacements_commute (p : List Run) (oldA newA oldB newB : List Char) (s1 s2 : Nat)
    (hA : oldA ≠ []) (hB : oldB ≠ [])
    (h1 : findSub (fullText p) oldA = some s1)
    (h2 : findSub (fullText p) oldB = some s2)
    (hord : s1 + oldA.length ≤ s2)
    (h3 : findSub (fullText ((replace_text_in_runs p oldA newA).2)) oldB
            = some (s1 + newA.length + (s2 - (s1 + oldA.length))))
    (h4 : findSub (fullText ((replace_text_in_runs p oldB newB).2)) oldA = some s1) :
    explode ((replace_text_in_runs ((replace_text_in_runs p oldA newA).2) oldB newB).2)
      = explode ((replace_text_in_runs ((replace_text_in_runs p oldB newB).2) oldA newA).2) ∧
    fullText ((replace_text_in_runs ((replace_text_in_runs p oldA newA).2) oldB newB).2)
      = fullText ((replace_text_in_runs ((replace_text_in_runs p oldB newB).2) oldA newA).2) := by
  have hnA : 0 < oldA.length := List.length_pos.mpr hA
  have hnB : 0 < oldB.length := List.length_pos.mpr hB
  have hlenE := length_explode p
  have hb1 := findSub_bound h1
  have hb2 := findSub_bound h2
  obtain ⟨rA, AA, BA, cA, hfA, hbA, hrA, hAA, hBA, hhA, hxA⟩ :=
    replace_found p oldA newA oldA s1 hA (chosenMatch_of_findSub h1)
  obtain ⟨rB, AB, BB, cB, hfB, hbB, hrB, hAB, hBB, hhB, hxB⟩ :=
    replace_found p oldB newB oldB s2 hB (chosenMatch_of_findSub h2)
  obtain ⟨rB', A12, B12, cB', hfB', hb12, hr12, hA12, hB12, hhB', hx12⟩ :=
    replace_found ((replace_text_in_runs p oldA newA).2) oldB newB oldB
      (s1 + newA.length + (s2 - (s1 + oldA.length))) hB (chosenMatch_of_findSub h3)
  obtain ⟨rA'', A21, B21, cA'', hfA'', hb21, hr21, hA21, hB21, hhA'', hx21⟩ :=
    replace_found ((replace_text_in_runs p oldB newB).2) oldA newA oldA
      s1 hA (chosenMatch_of_findSub h4)
  have hX1 : ((explode p).take s1).length = s1 := by
    rw [List.length_take]
    omega
  have hX2 : ((explode p).take s2).length = s2 := by
    rw [List.length_take]
    omega
  have hNA : (newA.map (fun ch => (ch, rA.style, rA.font))).length = newA.length := by
    simp
  have hNB : (newB.map (fun ch => (ch, rB.style, rB.font))).length = newB.length := by
    simp
  -- the character-level view of the intermediate paragraphs
  have hdrop12 : (explode ((replace_text_in_runs p oldA newA).2)).drop
      (s1 + newA.length + (s2 - (s1 + oldA.length))) = (explode p).drop s2 := by
    rw [hxA, drop_XYD _ _ _ _ (s2 - (s1 + oldA.length)) (by rw [hX1, hNA]; omega)
      (by rw [hX1, hNA]; omega)]
    rw [List.drop_drop]
    congr 1
    omega
  have htake12 : (explode ((replace_text_in_runs p oldA newA).2)).take
      (s1 + newA.length + (s2 - (s1 + oldA.length)))
      = ((explode p).take s1 ++ newA.map (fun ch => (ch, rA.style, rA.font)))
        ++ ((explode p).drop (s1 + oldA.length)).take (s2 - (s1 + oldA.length)) := by
    rw [hxA, take_XYD _ _ _ _ (s2 - (s1 + oldA.length)) (by rw [hX1, hNA]; omega)
      (by rw [hX1, hNA]; omega)]
  have hdropTail12 : (explode ((replace_text_in_runs p oldA newA).2)).drop
      (s1 + newA.length + (s2 - (s1 + oldA.length)) + oldB.length) = (explode p).drop (s2 + oldB.length) := by
    rw [hxA, drop_XYD _ _ _ _ (s2 - (s1 + oldA.length) + oldB.length) (by rw [hX1, hNA]; omega)
      (by rw [hX1, hNA]; omega)]
    rw [List.drop_drop]
    congr 1
    omega
  -- the replacement run of the second replace carries the style and font
  -- of the character at the original position s2
  rw [hdrop12] at hhB'
  have hpairB := Option.some.inj (hhB'.symm.trans hhB)
  have hstyB : rB'.style = rB.style := congrArg (fun x => x.2.1) hpairB
  have hfntB : rB'.font = rB.font := congrArg (fun x => x.2.2) hpairB
  -- order 2: the same computations on the B-first intermediate paragraph
  have htake21 : (explode ((replace_text_in_runs p oldB newB).2)).take s1
      = (explode p).take s1 := by
    rw [hxB, List.take_append_eq_append_take, List.take_append_eq_append_take]
    have ha : s1 - ((explode p).take s2).length = 0 := by rw [hX2]; omega
    have hb : s1 - (((explode p).take s2).length + (newB.map (fun ch => (ch, rB.style, rB.font))).length) = 0 := by
      rw [hX2, hNB]; omega
    rw [List.length_append, ha, hb]
    simp only [List.take_zero, List.append_nil]
    rw [List.take_take]
    congr 1
    omega
  have hdrop21head : ((explode ((replace_text_in_runs p oldB newB).2)).drop s1).head?
      = ((explode p).drop s1).head? := by
    rw [hxB, List.drop_append_eq_append_drop, List.drop_append_eq_append_drop]
    have ha : s1 - ((explode p).take s2).length = 0 := by rw [hX2]; omega
    rw [ha, List.drop_zero]
    have hne1 : ((explode p).take s2).drop s1 ≠ [] := by
      intro hcon
      have := congrArg List.length hcon
      rw [List.length_drop, hX2] at this
      simp at this
      omega
    rw [head_append _ _ (by
      intro hcon
      rcases List.append_eq_nil.mp hcon with ⟨hc1, _⟩
      exact hne1 hc1)]
    rw [head_append _ _ hne1]
    rw [List.drop_take]
    exact head_take _ _ (by omega)
  have hdropTail21 : (explode ((replace_text_in_runs p oldB newB).2)).drop (s1 + oldA.length)
      = (((explode p).drop (s1 + oldA.length)).take (s2 - (s1 + oldA.length))
          ++ newB.map (fun ch => (ch, rB.style, rB.font)))
        ++ (explode p).drop (s2 + oldB.length) := by
    rw [hxB, List.drop_append_eq_append_drop, List.drop_append_eq_append_drop]
    have ha : s1 + oldA.length - ((explode p).take s2).length = 0 := by rw [hX2]; omega
    have hb : s1 + oldA.length - (((explode p).take s2).length + (newB.map (fun ch => (ch, rB.style, rB.font))).length) = 0 := by
      rw [hX2, hNB]; omega
    rw [List.length_append, ha, hb]
    simp only [List.drop_zero]
    rw [List.drop_take]
  rw [hdrop21head] at hhA''
  have hpairA := Option.some.inj (hhA''.symm.trans hhA)
  have hstyA : rA''.style = rA.style := congrArg (fun x => x.2.1) hpairA
  have hfntA : rA''.font = rA.font := congrArg (fun x => x.2.2) hpairA
  have hmain :
      explode ((replace_text_in_runs ((replace_text_in_runs p oldA newA).2) oldB newB).2)
        = explode ((replace_text_in_runs ((replace_text_in_runs p oldB newB).2) oldA newA).2) := by
    rw [hx12, hx21]
    rw [htake12, hdropTail12, htake21, hdropTail21, hstyB, hfntB, hstyA, hfntA]
    simp [List.append_assoc]
  exact ⟨hmain, by rw [fullText_eq_map_fst, fullText_eq_map_fst, hmain]⟩

/-- Two-run paragraph "Axy" + "zB " with disjoint placeholders. -/
def C6paraW : List Run := [⟨['A', 'x'], "s", defaultFont⟩, ⟨['y', 'B'], "t", defaultFont⟩]

theorem C6_witness :
    (['A'] : List Char) ≠ [] ∧ (['B'] : List Char) ≠ [] ∧
    findSub (fullText C6paraW) ['A'] = some 0 ∧
    findSub (fullText C6paraW) ['B'] = some 3 ∧
    0 + (['A'] : List Char).length ≤ 3 ∧
    findSub (fullText ((replace_text_in_runs C6paraW ['A'] ['U', 'V']).2)) ['B']
      = some (0 + (['U', 'V'] : List Char).length + (3 - (0 + (['A'] : List Char).length))) ∧
    findSub (fullText ((replace_text_in_runs C6paraW ['B'] ['W']).2)) ['A'] = some 0 ∧
    (explode ((replace_text_in_runs ((replace_text_in_runs C6paraW ['A'] ['U', 'V']).2) ['B'] ['W']).2)
        = explode ((replace_text_in_runs ((replace_text_in_runs C6paraW ['B'] ['W']).2) ['A'] ['U', 'V']).2) ∧
      fullText ((replace_text_in_runs ((replace_text_in_runs C6paraW ['A'] ['U', 'V']).2) ['B'] ['W']).2)
        = fullText ((replace_text_in_runs ((replace_text_in_runs C6paraW ['B'] ['W']).2) ['A'] ['U', 'V']).2)) :=
  ⟨by decide, by decide, by decide, by decide, by decide, by decide, by decide,
    C6_disjoint_replacements_commute C6paraW ['A'] ['U', 'V'] ['B'] ['W'] 0 3
      (by decide) (by decide) (by decide) (by decide) (by decide) (by decide) (by decide)⟩

end DocGen
